import Mathlib

set_option maxRecDepth 8000

/-!
Shallow embedding of `pynspect/filters.py` (the `DataObjectFilter` record
evaluator and the `IDEAFilterCompiler` type-directed compiler) together with
concrete models of the external collaborators they consume
(`ipranges.from_str_v4` / `from_str_v6`, Python's `float()` / `int()` /
`datetime`, the `TIMESTAMP_RE` regular expression, and the rule-tree traversal
protocol from `pynspect.rules`).

Machine values that can sit in a rule node's `value` attribute are modelled by
`Val`; an absolute instant (`datetime.datetime`) is modelled as a count of
microseconds since 1970-01-01T00:00:00 in the proleptic Gregorian calendar.
Python exceptions that abort a compilation are modelled with `Except String`.
-/

/-- Model of the external `ipranges` value family (`IP4`, `IP4Net`, `IP4Range`,
`IP6`, `IP6Net`, `IP6Range`, all instances of `ipranges.Range`). Addresses are
their numeric values. -/
inductive IPRangeV
  | ip4 (addr : Nat)
  | ip4net (addr : Nat) (cidr : Nat)
  | ip4range (lo hi : Nat)
  | ip6 (addr : Nat)
  | ip6net (addr : Nat) (cidr : Nat)
  | ip6range (lo hi : Nat)
deriving DecidableEq

/-- A Python value held in a rule node's `value` attribute: a raw string, an
`int`, a `float` (modelled as a rational), a parsed `ipranges.Range` object, or
a `datetime.datetime` instant (microseconds since the 1970 epoch). -/
inductive Val
  | vstr (s : String)
  | vint (n : Int)
  | vfloat (q : Rat)
  | vip (r : IPRangeV)
  | vdt (t : Int)
deriving DecidableEq

mutual
/-- The rule-tree node model of `pynspect.rules` (as imported by
`filters.py`), plus the `IPListRule` subclass that `filters.py` itself defines.
`IPListRule` is a subclass of `ListRule` in the source; predicates modelling
`isinstance(-, ListRule)` treat both list constructors as list rules. The
`value` of a list rule is a `RuleList`, an ordered sequence of rule nodes. -/
inductive Rule
  | IPV4Rule (value : Val)
  | IPV6Rule (value : Val)
  | DatetimeRule (value : Val)
  | IntegerRule (value : Val)
  | FloatRule (value : Val)
  | ConstantRule (value : Val)
  | VariableRule (value : String)
  | ListRule (value : RuleList)
  | IPListRule (value : RuleList)
  | LogicalBinOpRule (operation : String) (left right : Rule)
  | ComparisonBinOpRule (operation : String) (left right : Rule)
  | MathBinOpRule (operation : String) (left right : Rule)
  | UnaryOperationRule (operation : String) (right : Rule)
deriving DecidableEq

inductive RuleList
  | nil
  | cons (head : Rule) (tail : RuleList)
deriving DecidableEq
end

/-- The rules of a `RuleList` as an ordinary list. -/
def RuleList.toList : RuleList → List Rule
  | .nil => []
  | .cons r rs => r :: rs.toList

/-! ### Character and number parsing helpers (models of Python builtins) -/

/-- Numeric value of a decimal digit list (most significant first). -/
def natOfDigits (l : List Char) : Nat :=
  l.foldl (fun a c => a * 10 + (c.toNat - 48)) 0

/-- All characters are decimal digits. -/
def allDigits (l : List Char) : Bool :=
  l.all (·.isDigit)

/-- Model of Python `int(s)` on a string: optional sign followed by one or
more decimal digits, the whole string consumed; otherwise a `ValueError`. -/
def pyIntParse (s : String) : Except String Int :=
  match s.toList with
  | '+' :: rest =>
      if rest ≠ [] ∧ allDigits rest then .ok (natOfDigits rest)
      else .error "ValueError: invalid literal for int"
  | '-' :: rest =>
      if rest ≠ [] ∧ allDigits rest then .ok (-(natOfDigits rest : Int))
      else .error "ValueError: invalid literal for int"
  | l =>
      if l ≠ [] ∧ allDigits l then .ok (natOfDigits l)
      else .error "ValueError: invalid literal for int"

/-- Exponent part of a float literal: optional sign then one or more digits,
consuming the whole remainder. -/
def floatExpPart (l : List Char) : Option Int :=
  match l with
  | '+' :: rest =>
      if rest ≠ [] ∧ allDigits rest then some (natOfDigits rest) else none
  | '-' :: rest =>
      if rest ≠ [] ∧ allDigits rest then some (-(natOfDigits rest : Int)) else none
  | rest =>
      if rest ≠ [] ∧ allDigits rest then some (natOfDigits rest) else none

/-- Scale a rational by a signed power of ten. -/
def ratScale (q : Rat) (e : Int) : Rat :=
  if 0 ≤ e then q * (10 : Rat) ^ e.toNat else q / (10 : Rat) ^ (-e).toNat

/-- Unsigned core of a Python float literal: digits, optional fraction,
optional exponent, with at least one digit in the mantissa. -/
def parseFloatCore (l : List Char) : Option Rat :=
  let ip := l.takeWhile (·.isDigit)
  let rest1 := l.drop ip.length
  let fp :=
    match rest1 with
    | '.' :: t => t.takeWhile (·.isDigit)
    | _ => []
  let rest2 :=
    match rest1 with
    | '.' :: t => t.drop fp.length
    | _ => rest1
  if ip.isEmpty ∧ fp.isEmpty then none
  else
    let base : Rat := ((natOfDigits (ip ++ fp) : Int) : Rat) / (10 : Rat) ^ fp.length
    match rest2 with
    | [] => some base
    | 'e' :: t => (floatExpPart t).map (ratScale base)
    | 'E' :: t => (floatExpPart t).map (ratScale base)
    | _ => none

/-- Model of Python `float(s)` on a string (decimal literals with optional
sign, fraction and exponent; `inf`/`nan` spellings are not needed by any
claim and are treated as failures). -/
def parseFloat (s : String) : Option Rat :=
  match s.toList with
  | '+' :: t => parseFloatCore t
  | '-' :: t => (parseFloatCore t).map Neg.neg
  | t => parseFloatCore t

/-! ### Model of `ipranges.from_str_v4` and `ipranges.from_str_v6` -/

/-- Split a character list on a separator character (model of
`str.split(sep)` for a one-character separator). -/
def splitOnChar (sep : Char) : List Char → List (List Char)
  | [] => [[]]
  | c :: rest =>
      let r := splitOnChar sep rest
      if c = sep then [] :: r
      else
        match r with
        | h :: t => (c :: h) :: t
        | [] => [[c]]

/-- One dotted-quad octet: one to three digits, value at most 255. -/
def parseOctet (l : List Char) : Option Nat :=
  if l ≠ [] ∧ l.length ≤ 3 ∧ allDigits l then
    if natOfDigits l ≤ 255 then some (natOfDigits l) else none
  else none

/-- Numeric value of a dotted-quad IPv4 address string. -/
def parseAddrV4 (l : List Char) : Option Nat :=
  match (splitOnChar '.' l).mapM parseOctet with
  | some [a, b, c, d] => some (((a * 256 + b) * 256 + c) * 256 + d)
  | _ => none

/-- CIDR suffix: digits with value at most `maxBits`. -/
def parseCidr (l : List Char) (maxBits : Nat) : Option Nat :=
  if l ≠ [] ∧ allDigits l then
    if natOfDigits l ≤ maxBits then some (natOfDigits l) else none
  else none

/-- Model of `ipranges.from_str_v4`: accepts a single address `A.B.C.D`, a
network `A.B.C.D/n`, or a range `A.B.C.D-E.F.G.H`; anything else fails. -/
def from_str_v4 (s : String) : Option IPRangeV :=
  match splitOnChar '/' s.toList with
  | [a, c] =>
      match parseAddrV4 a, parseCidr c 32 with
      | some n, some k => some (.ip4net n k)
      | _, _ => none
  | [a] =>
      match splitOnChar '-' a with
      | [x, y] =>
          match parseAddrV4 x, parseAddrV4 y with
          | some lo, some hi => some (.ip4range lo hi)
          | _, _ => none
      | [_] => (parseAddrV4 a).map .ip4
      | _ => none
  | _ => none

/-- Value of one hexadecimal digit. -/
def hexDigitVal (c : Char) : Option Nat :=
  if c.isDigit then some (c.toNat - 48)
  else if 'a' ≤ c ∧ c ≤ 'f' then some (c.toNat - 87)
  else if 'A' ≤ c ∧ c ≤ 'F' then some (c.toNat - 55)
  else none

/-- One IPv6 group: one to four hexadecimal digits. -/
def parseHexGroup (l : List Char) : Option Nat :=
  if l ≠ [] ∧ l.length ≤ 4 then
    (l.mapM hexDigitVal).map (·.foldl (fun a d => a * 16 + d) 0)
  else none

/-- Split at the first `::` occurrence. -/
def findDoubleColon : List Char → Option (List Char × List Char)
  | ':' :: ':' :: rest => some ([], rest)
  | c :: rest => (findDoubleColon rest).map (fun p => (c :: p.1, p.2))
  | [] => none

/-- Colon-separated hex groups; the empty string stands for no groups. -/
def parseGroups (l : List Char) : Option (List Nat) :=
  if l = [] then some []
  else (splitOnChar ':' l).mapM parseHexGroup

/-- Combine eight 16-bit groups into one numeric IPv6 address. -/
def combineV6 (gs : List Nat) : Nat :=
  gs.foldl (fun a g => a * 65536 + g) 0

/-- Numeric value of an IPv6 address string, with at most one `::`. -/
def parseAddrV6 (l : List Char) : Option Nat :=
  match findDoubleColon l with
  | none =>
      match parseGroups l with
      | some gs => if gs.length = 8 then some (combineV6 gs) else none
      | none => none
  | some (lft, rgt) =>
      if findDoubleColon rgt ≠ none then none
      else
        match parseGroups lft, parseGroups rgt with
        | some gl, some gr =>
            if gl.length + gr.length ≤ 7 then
              some (combineV6 (gl ++ List.replicate (8 - gl.length - gr.length) 0 ++ gr))
            else none
        | _, _ => none

/-- Model of `ipranges.from_str_v6`: a single address, a `/n` network, or a
`lo-hi` range of IPv6 addresses. -/
def from_str_v6 (s : String) : Option IPRangeV :=
  match splitOnChar '/' s.toList with
  | [a, c] =>
      match parseAddrV6 a, parseCidr c 128 with
      | some n, some k => some (.ip6net n k)
      | _, _ => none
  | [a] =>
      match splitOnChar '-' a with
      | [x, y] =>
          match parseAddrV6 x, parseAddrV6 y with
          | some lo, some hi => some (.ip6range lo hi)
          | _, _ => none
      | [_] => (parseAddrV6 a).map .ip6
      | _ => none
  | _ => none

/-! ### Calendar model for `datetime.datetime` -/

/-- Gregorian leap-year test. -/
def isLeapYear (y : Nat) : Bool :=
  y % 4 == 0 && (y % 100 != 0 || y % 400 == 0)

/-- Number of days in a month. -/
def monthDays (y m : Nat) : Nat :=
  if m = 2 then (if isLeapYear y then 29 else 28)
  else if m = 4 ∨ m = 6 ∨ m = 9 ∨ m = 11 then 30
  else 31

/-- Days in the months of year `y` strictly before month `m`. -/
def daysBeforeMonth (y m : Nat) : Nat :=
  (List.range (m - 1)).foldl (fun a i => a + monthDays y (i + 1)) 0

/-- Day count of `y-m-d` from 0001-01-01 in the proleptic Gregorian
calendar. -/
def rataDie (y m d : Nat) : Int :=
  (365 * (y - 1) + (y - 1) / 4 + (y - 1) / 400 + daysBeforeMonth y m + (d - 1) : Int)
    - ((y - 1) / 100 : Nat)

/-- The instant `y-m-d h:mi:s.us` as microseconds since the 1970 epoch
(719162 is the rata die of 1970-01-01). -/
def mkInstant (y m d h mi s us : Nat) : Int :=
  ((rataDie y m d - 719162) * 86400 + (h * 3600 + mi * 60 + s : Nat)) * 1000000 + us

/-- Field validation performed by the `datetime.datetime` constructor. -/
def validDatetime (y m d h mi s us : Nat) : Bool :=
  1 ≤ y && y ≤ 9999 && 1 ≤ m && m ≤ 12 && 1 ≤ d && d ≤ monthDays y m &&
    h ≤ 23 && mi ≤ 59 && s ≤ 59 && us ≤ 999999

/-! ### Model of `TIMESTAMP_RE` -/

/-- Captured groups of a `TIMESTAMP_RE` match. Groups 1-6 are the digit
strings for year, month, day, hour, minute and second; `frac` is the optional
fractional-second digit group; `zone` is either `"Z"`/`"z"` or a signed
`±HH:MM` offset string. -/
structure TSMatch where
  ys : String
  mos : String
  ds : String
  hs : String
  mins : String
  ss : String
  frac : Option String
  zone : String
deriving DecidableEq

/-- Exactly `n` leading decimal digits, returning them and the remainder. -/
def takeDigits (n : Nat) (l : List Char) : Option (List Char × List Char) :=
  let d := l.take n
  if d.length = n ∧ allDigits d then some (d, l.drop n) else none

/-- One expected literal character. -/
def expectChar (c : Char) : List Char → Option (List Char)
  | x :: rest => if x = c then some rest else none
  | [] => none

/-- The timezone suffix of `TIMESTAMP_RE`: `[Zz]` or `[+-][0-9]{2}:[0-9]{2}`,
anchored at the end of the string. -/
def parseZoneSuffix (l : List Char) : Option String :=
  match l with
  | ['Z'] => some "Z"
  | ['z'] => some "z"
  | c :: rest =>
      if c = '+' ∨ c = '-' then
        match takeDigits 2 rest with
        | some (hh, ':' :: rest2) =>
            match takeDigits 2 rest2 with
            | some (mm, []) => some (String.mk (c :: (hh ++ ':' :: mm)))
            | _ => none
        | _ => none
      else none
  | [] => none

/-- Model of `TIMESTAMP_RE.match`: anchored match of
`^(\d{4})-(\d{2})-(\d{2})[Tt](\d{2}):(\d{2}):(\d{2})(?:\.(\d+))?([Zz]|[+-]\d{2}:\d{2})$`. -/
def timestamp_re_match (s : String) : Option TSMatch := do
  let (y, r1) ← takeDigits 4 s.toList
  let r2 ← expectChar '-' r1
  let (mo, r3) ← takeDigits 2 r2
  let r4 ← expectChar '-' r3
  let (d, r5) ← takeDigits 2 r4
  let r6 ← match r5 with
           | 'T' :: t => some t
           | 't' :: t => some t
           | _ => none
  let (h, r7) ← takeDigits 2 r6
  let r8 ← expectChar ':' r7
  let (mi, r9) ← takeDigits 2 r8
  let r10 ← expectChar ':' r9
  let (sec, r11) ← takeDigits 2 r10
  let fr : Option (List Char × List Char) :=
    match r11 with
    | '.' :: t =>
        let ds := t.takeWhile (·.isDigit)
        if ds.isEmpty then none else some (ds, t.drop ds.length)
    | _ => none
  let frs := fr.map (fun p => String.mk p.1)
  let r12 := match fr with
             | some p => p.2
             | none => r11
  let zone ← parseZoneSuffix r12
  pure ⟨String.mk y, String.mk mo, String.mk d, String.mk h, String.mk mi,
        String.mk sec, frs, zone⟩

-- Decidable equality of fallible results, for closed statements by `decide`.
deriving instance DecidableEq for Except

/-! ### Value and attribute helpers -/

/-- `isinstance(v, ipranges.Range)`: the value is a parsed IP range object. -/
def isRangeVal : Val → Bool
  | .vip _ => true
  | _ => false

/-- The value is a parsed `datetime.datetime` instant. -/
def isDatetimeVal : Val → Bool
  | .vdt _ => true
  | _ => false

/-- The value is a Python `int`. -/
def isIntVal : Val → Bool
  | .vint _ => true
  | _ => false

/-- The `value` attribute of a rule node, when it holds a plain machine value.
`VariableRule.value` is the path string. A list rule's `value` is a list of
rule objects and an operation rule has no `value` attribute; both are `none`
here, and every consumer of `none` models the resulting Python `TypeError` /
`AttributeError` as a fatal error. -/
def ruleValueAttr : Rule → Option Val
  | .IPV4Rule v => some v
  | .IPV6Rule v => some v
  | .DatetimeRule v => some v
  | .IntegerRule v => some v
  | .FloatRule v => some v
  | .ConstantRule v => some v
  | .VariableRule p => some (.vstr p)
  | _ => none

/-- Model of Python `float(v)` on a machine value: numbers convert, strings
are parsed, other objects raise `TypeError` (`none`). -/
def pyFloatOfVal : Val → Option Rat
  | .vstr s => parseFloat s
  | .vint n => some (n : Rat)
  | .vfloat q => some q
  | _ => none

/-- Truncation of a rational toward zero, as Python `int(float)`. -/
def ratTrunc (q : Rat) : Int :=
  if 0 ≤ q.num then q.num / (q.den : Int) else -((-q.num) / (q.den : Int))

/-- Model of Python `int(v)`: ints pass, floats truncate, strings are parsed
strictly, anything else raises. -/
def pyIntOfVal : Val → Except String Int
  | .vint n => .ok n
  | .vfloat q => .ok (ratTrunc q)
  | .vstr s => pyIntParse s
  | _ => .error "TypeError"

/-- Model of Python `str(v)` as used on line 211 of the source before the
regular-expression match. Only the string case can ever match
`TIMESTAMP_RE`; the renders of non-string objects start with a letter and
can never match the anchored digit pattern. -/
def pyStrOfVal : Val → String
  | .vstr s => s
  | .vint _ => "int"
  | .vfloat _ => "float"
  | .vip _ => "iprange"
  | .vdt _ => "datetime"

/-! ### Compiler helpers (`filters.py` lines 177-233) -/

/-- `compile_ip_v4` (lines 177-185): pass a value that is already an
`ipranges.Range` through unchanged, otherwise parse the literal string with
the IPv4 parser and build a fresh `IPV4Rule`. -/
def compile_ip_v4 (rule : Rule) : Except String Rule :=
  match ruleValueAttr rule with
  | none => .error "TypeError"
  | some v =>
      if isRangeVal v then .ok rule
      else
        match v with
        | .vstr s =>
            match from_str_v4 s with
            | some rng => .ok (.IPV4Rule (.vip rng))
            | none => .error "ParseLiteralError"
        | _ => .error "TypeError"

/-- `compile_ip_v6` (lines 187-195): as `compile_ip_v4` with the IPv6
parser, building a fresh `IPV6Rule`. -/
def compile_ip_v6 (rule : Rule) : Except String Rule :=
  match ruleValueAttr rule with
  | none => .error "TypeError"
  | some v =>
      if isRangeVal v then .ok rule
      else
        match v with
        | .vstr s =>
            match from_str_v6 s with
            | some rng => .ok (.IPV6Rule (.vip rng))
            | none => .error "ParseLiteralError"
        | _ => .error "TypeError"

/-- External capabilities consumed by the compiler: the arithmetic evaluator
`evaluate_binop_math` of `FilteringTreeTraverser` (modelled from the spec:
`evalArithmetic(op, left, right) -> scalar | sequence`) and
`datetime.datetime.fromtimestamp` (an epoch offset to a local instant). -/
inductive MathResult
  | scalar (v : Val)
  | values (vs : List Val)
deriving DecidableEq

structure ExtCap where
  evaluate_binop_math : String → Val → Val → MathResult
  fromtimestamp : Rat → Int

/-- The minute count `zonespl[0]*60 + zonespl[1]` of line 218: `(0, 0)` for a
literal `"z"`/`"Z"`, otherwise `[int(i) for i in zonestr.split(":")]`. Note
the sign of the offset string applies only to the first (hour) component. -/
def zoneSplitMinutes (zonestr : String) : Except String Int :=
  if zonestr = "z" ∨ zonestr = "Z" then .ok 0
  else
    match (splitOnChar ':' zonestr.toList).mapM
        (fun t => (pyIntParse (String.mk t)).toOption) with
    | some [a, b] => .ok (a * 60 + b)
    | _ => .error "ValueError"

/-- `compile_datetime` (lines 197-221): pass a parsed instant through; else
try Python `float()` and `fromtimestamp`; else match `TIMESTAMP_RE`, build
the naive instant from the decoded fields and subtract the zone offset; else
raise `ValueError("Wrong Timestamp")`. Fields decoded by the regular
expression are all-digit strings, so `int(...)` is `natOfDigits`. -/
def compile_datetime (ext : ExtCap) (rule : Rule) : Except String Rule :=
  match ruleValueAttr rule with
  | none => .error "TypeError"
  | some v =>
      if isDatetimeVal v then .ok rule
      else
        match pyFloatOfVal v with
        | some q => .ok (.DatetimeRule (.vdt (ext.fromtimestamp q)))
        | none =>
            match timestamp_re_match (pyStrOfVal v) with
            | some m =>
                let y := natOfDigits m.ys.toList
                let mo := natOfDigits m.mos.toList
                let d := natOfDigits m.ds.toList
                let h := natOfDigits m.hs.toList
                let mi := natOfDigits m.mins.toList
                let sec := natOfDigits m.ss.toList
                let fracDigits := ((m.frac.getD "0").toList).take 6
                let us := natOfDigits fracDigits * 10 ^ (6 - fracDigits.length)
                match zoneSplitMinutes m.zone with
                | .error e => .error e
                | .ok zmin =>
                    if validDatetime y mo d h mi sec us then
                      .ok (.DatetimeRule (.vdt (mkInstant y mo d h mi sec us - zmin * 60000000)))
                    else .error "ValueError: invalid datetime"
            | none => .error "Wrong Timestamp"

/-- `clean_variable` (lines 224-233): remove every `[digits]` occurrence from
a variable path, exactly as `re.sub(r'\[\d+\]', '', var)`. The scan keeps a
pending buffer after an opening bracket; a bracketed nonempty digit run
closed by `]` is dropped, anything else is emitted literally. -/
def cleanAux : Option (List Char) → List Char → List Char
  | none, [] => []
  | some ds, [] => '[' :: ds.reverse
  | none, c :: rest =>
      if c = '[' then cleanAux (some []) rest
      else c :: cleanAux none rest
  | some ds, c :: rest =>
      if c.isDigit then cleanAux (some (c :: ds)) rest
      else if c = ']' then
        if ds.isEmpty then '[' :: ']' :: cleanAux none rest
        else cleanAux none rest
      else if c = '[' then '[' :: (ds.reverse ++ cleanAux (some []) rest)
      else '[' :: (ds.reverse ++ (c :: cleanAux none rest))

def clean_variable (var : String) : String :=
  String.mk (cleanAux none var.toList)

/-! ### The coercion table `COMPILATIONS_IDEA_OBJECT` (lines 250-261) -/

inductive CompKind
  | cdt
  | cip4
  | cip6
deriving DecidableEq

inductive ListCtor
  | plain
  | ipl
deriving DecidableEq

/-- The static semantic-path coercion table: each canonical path maps to a
scalar coercion (`comp_i`) and a list constructor (`comp_l`). -/
def compilations_idea_object (path : String) : Option (CompKind × ListCtor) :=
  if path = "CreateTime" ∨ path = "DetectTime" ∨ path = "EventTime" ∨
      path = "CeaseTime" ∨ path = "WinStartTime" ∨ path = "WinEndTime" then
    some (.cdt, .plain)
  else if path = "Source.IP4" ∨ path = "Target.IP4" then some (.cip4, .ipl)
  else if path = "Source.IP6" ∨ path = "Target.IP6" then some (.cip6, .ipl)
  else none

/-- Dispatch of the table's `comp_i` scalar coercion callback. -/
def comp_i (k : CompKind) (ext : ExtCap) (rule : Rule) : Except String Rule :=
  match k with
  | .cdt => compile_datetime ext rule
  | .cip4 => compile_ip_v4 rule
  | .cip6 => compile_ip_v6 rule

/-- Dispatch of the table's `comp_l` list constructor. -/
def comp_l : ListCtor → RuleList → Rule
  | .plain, rs => .ListRule rs
  | .ipl, rs => .IPListRule rs

/-- The loop `for itemv in val.value: result.append(compilation['comp_i'](itemv))`
of lines 363-365, with the first raised exception aborting compilation. -/
def coerceItems (k : CompKind) (ext : ExtCap) : RuleList → Except String RuleList
  | .nil => .ok .nil
  | .cons r rs =>
      match comp_i k ext r with
      | .error e => .error e
      | .ok r' =>
          match coerceItems k ext rs with
          | .error e => .error e
          | .ok rs' => .ok (.cons r' rs')

/-! ### The compiler traversal `IDEAFilterCompiler` (lines 264-392) -/

/-- Is the node a `VariableRule`? (`isinstance(-, VariableRule)`). -/
def isVariableRule : Rule → Bool
  | .VariableRule _ => true
  | _ => false

/-- Is the node a `ListRule`? `IPListRule` is a subclass of `ListRule`, so
`isinstance(-, ListRule)` is true for both. -/
def isListRuleInst : Rule → Bool
  | .ListRule _ => true
  | .IPListRule _ => true
  | _ => false

/-- The items of a list rule. -/
def listRuleItems : Rule → Option RuleList
  | .ListRule rs => some rs
  | .IPListRule rs => some rs
  | _ => none

/-- The var/val selection of lines 351-357: exactly one side a
`VariableRule` selects `(var.value, val)`; both or neither selects nothing. -/
def selectVarVal : Rule → Rule → Option (String × Rule)
  | .VariableRule _, .VariableRule _ => none
  | .VariableRule p, r => some (p, r)
  | l, .VariableRule p => some (p, l)
  | _, _ => none

/-- `binary_operation_comparison` (lines 347-370) after both children have
been compiled: when a variable side is selected and its canonical path is in
the coercion table, the coerced value replaces the *right* operand (exactly
as in the source, whichever side the variable was on), and the node is
rebuilt as `ComparisonBinOpRule(op, left, right)`. -/
def comparisonStep (ext : ExtCap) (op : String) (left right : Rule) :
    Except String Rule :=
  match selectVarVal left right with
  | none => .ok (.ComparisonBinOpRule op left right)
  | some (p, val) =>
      match compilations_idea_object (clean_variable p) with
      | none => .ok (.ComparisonBinOpRule op left right)
      | some (k, lc) =>
          match listRuleItems val with
          | some items =>
              match coerceItems k ext items with
              | .error e => .error e
              | .ok outs => .ok (.ComparisonBinOpRule op left (comp_l lc outs))
          | none =>
              match comp_i k ext val with
              | .error e => .error e
              | .ok out => .ok (.ComparisonBinOpRule op left out)

/-- `isinstance(-, IntegerRule)`. -/
def isIntegerRule : Rule → Bool
  | .IntegerRule _ => true
  | _ => false

/-- `isinstance(-, NumberRule)`: `NumberRule` is the common superclass of
`IntegerRule` and `FloatRule`. -/
def isNumberRule : Rule → Bool
  | .IntegerRule _ => true
  | .FloatRule _ => true
  | _ => false

/-- The `value` of a number rule (guarded by `isNumberRule` at every use). -/
def numValue : Rule → Val
  | .IntegerRule v => v
  | .FloatRule v => v
  | _ => .vint 0

/-- Build a rule list by wrapping each value with a literal constructor. -/
def wrapVals (f : Val → Rule) : List Val → RuleList
  | [] => .nil
  | v :: vs => .cons (f v) (wrapVals f vs)

/-- `binary_operation_math` (lines 372-386) after both children have been
compiled: fold two integer literals through the external arithmetic
evaluator into integer literal(s); fold two number literals into float
literal(s); otherwise rebuild the node with the compiled children. -/
def mathStep (ext : ExtCap) (op : String) (left right : Rule) : Rule :=
  if isIntegerRule left && isIntegerRule right then
    match ext.evaluate_binop_math op (numValue left) (numValue right) with
    | .values vs => .ListRule (wrapVals (fun v => .IntegerRule v) vs)
    | .scalar v => .IntegerRule v
  else if isNumberRule left && isNumberRule right then
    match ext.evaluate_binop_math op (numValue left) (numValue right) with
    | .values vs => .ListRule (wrapVals (fun v => .FloatRule v) vs)
    | .scalar v => .FloatRule v
  else .MathBinOpRule op left right

/-- A mutation performed on a node of the input tree: the reassignment of a
`value` attribute, recording the old and the new value. The only assignment
in the whole compiler is `rule.value = int(rule.value)` on line 320. -/
structure Mut where
  oldVal : Val
  newVal : Val
deriving DecidableEq

/-- The compiler traversal. The bottom-up walk itself lives in
`pynspect.rules` / `pynspect.traversers` and is modelled from the spec:
operator nodes traverse their children first (left-to-right, depth-first)
and then invoke the compiler's callback on the children's results; leaf and
list callbacks receive the node itself (the source's `list` / `variable` /
literal callbacks take no child results). The callbacks are the methods of
`IDEAFilterCompiler`: `ipv4` and `ipv6` both call `compile_ip_v4` (the
source's line 306 calls `compile_ip_v4`, not `compile_ip_v6`); `datetime`
calls `compile_datetime`; `integer` executes `rule.value = int(rule.value)`
in place, recorded here as a `Mut`; `constant`, `variable` and `list` return
the rule unchanged; a `FloatRule` leaf passes through (modelled from the
spec: leaf literals other than IP/timestamp pass through). The result is
the compiled node together with the ordered trace of mutations performed on
the input tree. -/
def compileM (ext : ExtCap) : Rule → Except String (Rule × List Mut)
  | .IPV4Rule v => (compile_ip_v4 (.IPV4Rule v)).map (fun r => (r, []))
  | .IPV6Rule v => (compile_ip_v4 (.IPV6Rule v)).map (fun r => (r, []))
  | .DatetimeRule v => (compile_datetime ext (.DatetimeRule v)).map (fun r => (r, []))
  | .IntegerRule v =>
      match pyIntOfVal v with
      | .error e => .error e
      | .ok n => .ok (.IntegerRule (.vint n), [⟨v, .vint n⟩])
  | .FloatRule v => .ok (.FloatRule v, [])
  | .ConstantRule v => .ok (.ConstantRule v, [])
  | .VariableRule p => .ok (.VariableRule p, [])
  | .ListRule rs => .ok (.ListRule rs, [])
  | .IPListRule rs => .ok (.IPListRule rs, [])
  | .LogicalBinOpRule op l r =>
      match compileM ext l with
      | .error e => .error e
      | .ok (l', tl) =>
          match compileM ext r with
          | .error e => .error e
          | .ok (r', tr) => .ok (.LogicalBinOpRule op l' r', tl ++ tr)
  | .ComparisonBinOpRule op l r =>
      match compileM ext l with
      | .error e => .error e
      | .ok (l', tl) =>
          match compileM ext r with
          | .error e => .error e
          | .ok (r', tr) =>
              match comparisonStep ext op l' r' with
              | .error e => .error e
              | .ok out => .ok (out, tl ++ tr)
  | .MathBinOpRule op l r =>
      match compileM ext l with
      | .error e => .error e
      | .ok (l', tl) =>
          match compileM ext r with
          | .error e => .error e
          | .ok (r', tr) => .ok (mathStep ext op l' r', tl ++ tr)
  | .UnaryOperationRule op r =>
      match compileM ext r with
      | .error e => .error e
      | .ok (r', tr) => .ok (.UnaryOperationRule op r', tr)

/-- `IDEAFilterCompiler.compile` (lines 280-289): the compiled tree. -/
def compile (ext : ExtCap) (rule : Rule) : Except String Rule :=
  (compileM ext rule).map Prod.fst

/-! ### The record evaluator `DataObjectFilter` (lines 76-171) -/

/-- Result of reading the `value` attribute during evaluation: a plain
machine value, or — for a list rule — the list of item rule objects. -/
inductive AttrVal
  | val (v : Val)
  | rules (rs : RuleList)
deriving DecidableEq

/-- The `value` attribute as seen by `ListRule.values()`
(`[i.value for i in self.value]`); an operation rule has no `value`
attribute and raises `AttributeError`. -/
def ruleAttrValue : Rule → Except String AttrVal
  | .IPV4Rule v => .ok (.val v)
  | .IPV6Rule v => .ok (.val v)
  | .DatetimeRule v => .ok (.val v)
  | .IntegerRule v => .ok (.val v)
  | .FloatRule v => .ok (.val v)
  | .ConstantRule v => .ok (.val v)
  | .VariableRule p => .ok (.val (.vstr p))
  | .ListRule rs => .ok (.rules rs)
  | .IPListRule rs => .ok (.rules rs)
  | _ => .error "AttributeError"

/-- The item values of a list rule, in order. -/
def attrValues : RuleList → Except String (List AttrVal)
  | .nil => .ok []
  | .cons r rs =>
      match ruleAttrValue r with
      | .error e => .error e
      | .ok a =>
          match attrValues rs with
          | .error e => .error e
          | .ok as' => .ok (a :: as')

/-- An evaluation result: a leaf value, the ordered value sequence a
variable's path resolves to, a `ListRule.values()` plain sequence, or an
`IPListRule.values()` sequence wrapped in the special `ListIP` sequence type
(`ListIP` is defined in `pynspect.traversers`; modelled from the spec as a
distinguished sequence wrapper). -/
inductive FVal
  | val (v : Val)
  | seqv (vs : List Val)
  | listv (vs : List AttrVal)
  | iplistv (vs : List AttrVal)
deriving DecidableEq

/-- External capabilities consumed by the evaluator, modelled from the spec
at the interface boundary: `jpath_values` resolves a path against the ambient
record to an ordered value sequence, and the four operator-evaluation
primitives live in `FilteringTreeTraverser`. -/
structure EvalCap where
  jpath_values : String → List Val
  evaluate_binop_logical : String → FVal → FVal → Except String FVal
  evaluate_binop_comparison : String → FVal → FVal → Except String FVal
  evaluate_binop_math : String → FVal → FVal → Except String FVal
  evaluate_unop : String → FVal → Except String FVal

/-- The `DataObjectFilter` traversal (`filter(rule, data)`): literal leaves
evaluate to their held value, a variable to `jpath_values(record, path)`, a
list rule to its `values()` (an `IPListRule` wraps them in `ListIP`), and
operator nodes evaluate their children and delegate to the external operator
capability. -/
def dataObjectFilter (ev : EvalCap) : Rule → Except String FVal
  | .IPV4Rule v => .ok (.val v)
  | .IPV6Rule v => .ok (.val v)
  | .DatetimeRule v => .ok (.val v)
  | .IntegerRule v => .ok (.val v)
  | .FloatRule v => .ok (.val v)
  | .ConstantRule v => .ok (.val v)
  | .VariableRule p => .ok (.seqv (ev.jpath_values p))
  | .ListRule rs => (attrValues rs).map .listv
  | .IPListRule rs => (attrValues rs).map .iplistv
  | .LogicalBinOpRule op l r =>
      match dataObjectFilter ev l with
      | .error e => .error e
      | .ok lv =>
          match dataObjectFilter ev r with
          | .error e => .error e
          | .ok rv => ev.evaluate_binop_logical op lv rv
  | .ComparisonBinOpRule op l r =>
      match dataObjectFilter ev l with
      | .error e => .error e
      | .ok lv =>
          match dataObjectFilter ev r with
          | .error e => .error e
          | .ok rv => ev.evaluate_binop_comparison op lv rv
  | .MathBinOpRule op l r =>
      match dataObjectFilter ev l with
      | .error e => .error e
      | .ok lv =>
          match dataObjectFilter ev r with
          | .error e => .error e
          | .ok rv => ev.evaluate_binop_math op lv rv
  | .UnaryOperationRule op r =>
      match dataObjectFilter ev r with
      | .error e => .error e
      | .ok rv => ev.evaluate_unop op rv

/-- A concrete instantiation of the compiler's external capabilities, used by
closed witness statements: arithmetic always returns the integer scalar `0`
and `fromtimestamp` maps every epoch offset to the epoch. -/
def extZero : ExtCap :=
  ⟨fun _ _ _ => .scalar (.vint 0), fun _ => 0⟩

/-! ### Statement-level definitions -/

/-- Characterization of compiled trees (the fixed points of the compiler):
range-valued IP literals, instant-valued datetime literals, int-valued
integer literals, all other leaves and list rules, operator nodes with
compiled children where the comparison table step is a no-op and a math node
is not foldable. -/
def isCompiledB (ext : ExtCap) : Rule → Bool
  | .IPV4Rule v => isRangeVal v
  | .IPV6Rule v => isRangeVal v
  | .DatetimeRule v => isDatetimeVal v
  | .IntegerRule v => isIntVal v
  | .FloatRule _ => true
  | .ConstantRule _ => true
  | .VariableRule _ => true
  | .ListRule _ => true
  | .IPListRule _ => true
  | .LogicalBinOpRule _ l r => isCompiledB ext l && isCompiledB ext r
  | .ComparisonBinOpRule op l r =>
      isCompiledB ext l && isCompiledB ext r &&
        decide (comparisonStep ext op l r = .ok (.ComparisonBinOpRule op l r))
  | .MathBinOpRule _ l r =>
      isCompiledB ext l && isCompiledB ext r && !(isNumberRule l && isNumberRule r)
  | .UnaryOperationRule _ r => isCompiledB ext r

/-- Contract of the external arithmetic evaluator assumed by idempotence:
on two `int` operands a scalar result is an `int` (the spec's
`evalArithmetic` returns the arithmetic result of the two integers; a
sequence result may hold anything). -/
def EvOK (ext : ExtCap) : Prop :=
  ∀ op a b v, ext.evaluate_binop_math op (.vint a) (.vint b) = .scalar v →
    ∃ n, v = .vint n

/-- A lexical segment of a variable path: plain text, or a bracketed index
`[d]`. -/
inductive PathSeg
  | plain (s : String)
  | idx (d : String)

/-- Is the segment plain text? -/
def segIsPlain : PathSeg → Bool
  | .plain _ => true
  | .idx _ => false

/-- The characters of a segment: an index renders as `[d]`. -/
def renderSegChars : PathSeg → List Char
  | .plain s => s.toList
  | .idx d => '[' :: (d.toList ++ [']'])

/-- Concatenation of rendered segments. -/
def renderPathChars : List PathSeg → List Char
  | [] => []
  | sg :: segs => renderSegChars sg ++ renderPathChars segs

/-- The path string spelled by a list of segments. -/
def renderPath (segs : List PathSeg) : String :=
  String.mk (renderPathChars segs)

/-- Well-formed segment: plain text holds no opening bracket, and an index
holds one or more digits. -/
def goodSeg : PathSeg → Bool
  | .plain s => s.toList.all (· ≠ '[')
  | .idx d => !d.toList.isEmpty && allDigits d.toList

/-- The value ("non-variable") side of a rebuilt comparison node. -/
def valueSideOf : Rule → Option Rule
  | .ComparisonBinOpRule _ _ r => some r
  | _ => none

/-- A literal rule holding an already-parsed IP range object. -/
def isParsedIPLit : Rule → Bool
  | .IPV4Rule (.vip _) => true
  | .IPV6Rule (.vip _) => true
  | _ => false

/-- The `value` attribute of a literal rule (defaulting for rules that have
none; every use is guarded). -/
def litValueD (r : Rule) : Val :=
  (ruleValueAttr r).getD (.vstr "")

/-- A concrete instantiation of the evaluator's external capabilities, used
by closed witness statements. -/
def evalCapStub : EvalCap :=
  ⟨fun _ => [], fun _ _ _ => .error "op", fun _ _ _ => .error "op",
   fun _ _ _ => .error "op", fun _ _ => .error "op"⟩

/-! ### Claim theorems -/

/-- C1: the claim says a `ComparisonBinOp` with the variable on the *right*
and a coercible value on the left is rebuilt with the variable kept in its
right position and the left (value) child replaced by its coerced form. The
code instead always assigns the coerced value to the right operand: at the
comparison `"192.168.0.1" OP_IN Source.IP4` it keeps the raw constant on the
left and *replaces the variable* by the coerced value, so the rebuilt node is
not the one the claim describes (second conjunct). -/
theorem c1_variable_on_right_is_overwritten :
    compile extZero (.ComparisonBinOpRule "OP_IN"
        (.ConstantRule (.vstr "192.168.0.1")) (.VariableRule "Source.IP4")) =
      .ok (.ComparisonBinOpRule "OP_IN"
        (.ConstantRule (.vstr "192.168.0.1")) (.IPV4Rule (.vip (.ip4 3232235521)))) ∧
    (Except.ok (Rule.ComparisonBinOpRule "OP_IN"
        (.ConstantRule (.vstr "192.168.0.1")) (.IPV4Rule (.vip (.ip4 3232235521))))
      : Except String Rule) ≠
      .ok (.ComparisonBinOpRule "OP_IN"
        (.IPV4Rule (.vip (.ip4 3232235521))) (.VariableRule "Source.IP4")) :=
  ⟨by decide, by decide⟩

/-- C2: the claim says a raw-string IPv6 literal is parsed with the IPv6
parser. The compiler's `ipv6` handler calls `compile_ip_v4` (line 306), so
the valid IPv6 literal `"::1"` fails compilation with a parse error even
though the IPv6 parser accepts it and `compile_ip_v6` would coerce it; only
the pass-through half of the claim (an already-parsed range value) holds. -/
theorem c2_ipv6_leaf_coerced_as_ipv4 :
    compile extZero (.IPV6Rule (.vstr "::1")) = .error "ParseLiteralError" ∧
    from_str_v6 "::1" = some (.ip6 1) ∧
    compile_ip_v6 (.IPV6Rule (.vstr "::1")) = .ok (.IPV6Rule (.vip (.ip6 1))) ∧
    ∀ ext rng, compile ext (.IPV6Rule (.vip rng)) = .ok (.IPV6Rule (.vip rng)) :=
  ⟨by decide, by decide, by decide, fun _ _ => rfl⟩

/-- C3: the claim says the decoded `±HH:MM` offset is subtracted with the
sign applying to both components. The code computes the offset as
`int("±HH")*60 + int("MM")`, so the sign applies only to the hour part: the
claimed example `+02:00` does normalize to `2023-05-01T08:00:00` UTC (first
conjunct), but `-02:30` is decoded as `-90` minutes instead of `-150`, so
the result is `11:30:00`, not the `12:30:00` required by the claim. -/
theorem c3_offset_sign_applies_only_to_hours :
    (∀ ext, compile_datetime ext (.ConstantRule (.vstr "2023-05-01T10:00:00+02:00")) =
        .ok (.DatetimeRule (.vdt (mkInstant 2023 5 1 8 0 0 0)))) ∧
    (∀ ext, compile_datetime ext (.ConstantRule (.vstr "2023-05-01T10:00:00-02:30")) =
        .ok (.DatetimeRule (.vdt (mkInstant 2023 5 1 11 30 0 0)))) ∧
    mkInstant 2023 5 1 11 30 0 0 ≠ mkInstant 2023 5 1 12 30 0 0 :=
  ⟨fun _ => rfl, fun _ => rfl, by decide⟩

/-- C4 counterexample: compiling the integer literal with raw value `"5"`
performs the in-place field assignment `rule.value = int(rule.value)` (one
recorded mutation, observably changing the node's value), so the compiler is
not mutation-free as claimed. -/
theorem c4_integer_value_field_reassigned :
    compileM extZero (.IntegerRule (.vstr "5")) =
      .ok (.IntegerRule (.vint 5), [⟨.vstr "5", .vint 5⟩]) ∧
    ([(⟨.vstr "5", .vint 5⟩ : Mut)] ≠ []) ∧
    Val.vstr "5" ≠ .vint 5 :=
  ⟨by decide, by decide, by decide⟩

/-- Helper: every mutation recorded by a compilation is the normalization of
one integer literal's `value` field. -/
theorem compileM_mut_integer_only (ext : ExtCap) : (r : Rule) → ∀ out tr,
    compileM ext r = .ok (out, tr) →
    ∀ m ∈ tr, ∃ v n, m = ⟨v, .vint n⟩ ∧ pyIntOfVal v = .ok n
  | .IPV4Rule v => fun out tr h m hm => by
      unfold compileM at h
      cases hc : compile_ip_v4 (.IPV4Rule v) <;> rw [hc] at h <;> simp [Except.map] at h
      rw [h.2] at hm; simp at hm
  | .IPV6Rule v => fun out tr h m hm => by
      unfold compileM at h
      cases hc : compile_ip_v4 (.IPV6Rule v) <;> rw [hc] at h <;> simp [Except.map] at h
      rw [h.2] at hm; simp at hm
  | .DatetimeRule v => fun out tr h m hm => by
      unfold compileM at h
      cases hc : compile_datetime ext (.DatetimeRule v) <;> rw [hc] at h <;>
        simp [Except.map] at h
      rw [h.2] at hm; simp at hm
  | .IntegerRule v => fun out tr h m hm => by
      unfold compileM at h
      cases hv : pyIntOfVal v <;> rw [hv] at h <;> simp at h
      rw [← h.2] at hm; simp at hm
      exact ⟨v, _, hm, hv⟩
  | .FloatRule v => fun out tr h m hm => by
      unfold compileM at h; simp at h; rw [h.2] at hm; simp at hm
  | .ConstantRule v => fun out tr h m hm => by
      unfold compileM at h; simp at h; rw [h.2] at hm; simp at hm
  | .VariableRule p => fun out tr h m hm => by
      unfold compileM at h; simp at h; rw [h.2] at hm; simp at hm
  | .ListRule rs => fun out tr h m hm => by
      unfold compileM at h; simp at h; rw [h.2] at hm; simp at hm
  | .IPListRule rs => fun out tr h m hm => by
      unfold compileM at h; simp at h; rw [h.2] at hm; simp at hm
  | .LogicalBinOpRule op l r => fun out tr h m hm => by
      unfold compileM at h
      cases hl : compileM ext l with
      | error e => rw [hl] at h; simp at h
      | ok p =>
        obtain ⟨l', tl⟩ := p
        rw [hl] at h
        cases hr : compileM ext r with
        | error e => rw [hr] at h; simp at h
        | ok q =>
          obtain ⟨r', tr2⟩ := q
          rw [hr] at h
          simp at h
          rw [← h.2] at hm
          rcases List.mem_append.mp hm with hm1 | hm2
          · exact compileM_mut_integer_only ext l l' tl hl m hm1
          · exact compileM_mut_integer_only ext r r' tr2 hr m hm2
  | .ComparisonBinOpRule op l r => fun out tr h m hm => by
      unfold compileM at h
      cases hl : compileM ext l with
      | error e => rw [hl] at h; simp at h
      | ok p =>
        obtain ⟨l', tl⟩ := p
        rw [hl] at h
        cases hr : compileM ext r with
        | error e => rw [hr] at h; simp at h
        | ok q =>
          obtain ⟨r', tr2⟩ := q
          rw [hr] at h
          simp only [] at h
          cases hs : comparisonStep ext op l' r' with
          | error e => simp [hs] at h
          | ok u =>
            simp [hs] at h
            rw [← h.2] at hm
            rcases List.mem_append.mp hm with hm1 | hm2
            · exact compileM_mut_integer_only ext l l' tl hl m hm1
            · exact compileM_mut_integer_only ext r r' tr2 hr m hm2
  | .MathBinOpRule op l r => fun out tr h m hm => by
      unfold compileM at h
      cases hl : compileM ext l with
      | error e => rw [hl] at h; simp at h
      | ok p =>
        obtain ⟨l', tl⟩ := p
        rw [hl] at h
        cases hr : compileM ext r with
        | error e => rw [hr] at h; simp at h
        | ok q =>
          obtain ⟨r', tr2⟩ := q
          rw [hr] at h
          simp at h
          rw [← h.2] at hm
          rcases List.mem_append.mp hm with hm1 | hm2
          · exact compileM_mut_integer_only ext l l' tl hl m hm1
          · exact compileM_mut_integer_only ext r r' tr2 hr m hm2
  | .UnaryOperationRule op r => fun out tr h m hm => by
      unfold compileM at h
      cases hr : compileM ext r with
      | error e => rw [hr] at h; simp at h
      | ok q =>
        obtain ⟨r', tr2⟩ := q
        rw [hr] at h
        simp at h
        rw [← h.2] at hm
        exact compileM_mut_integer_only ext r r' tr2 hr m hm

/-- C4, amended: the compiler is not mutation-free — it reassigns each
visited `IntegerLiteral`'s `value` field in place to `int(value)`; but every
mutation it performs on the input tree is such an integer-value
normalization, and every other rewritten node is newly constructed. -/
theorem c4_all_mutations_normalize_integer_values :
    ∀ ext r out tr, compileM ext r = .ok (out, tr) →
      ∀ m ∈ tr, ∃ v n, m = ⟨v, .vint n⟩ ∧ pyIntOfVal v = .ok n :=
  fun ext r => compileM_mut_integer_only ext r

/-- C4 witness: the amended theorem applied at a concrete compilation. -/
theorem c4_all_mutations_normalize_integer_values_witness :
    compileM extZero (.IntegerRule (.vstr "07")) =
      .ok (.IntegerRule (.vint 7), [⟨.vstr "07", .vint 7⟩]) ∧
    ∀ m ∈ [(⟨.vstr "07", .vint 7⟩ : Mut)],
      ∃ v n, m = ⟨v, .vint n⟩ ∧ pyIntOfVal v = .ok n :=
  ⟨by decide,
   c4_all_mutations_normalize_integer_values extZero (.IntegerRule (.vstr "07"))
     (.IntegerRule (.vint 7)) [⟨.vstr "07", .vint 7⟩] (by decide)⟩

/-- C6 counterexample: the claim says list items are still recursively
compiled. Compiling a `ListRule` holding the raw IPv4 literal
`"192.168.0.1"` returns the list with the item unchanged, although compiling
the same literal as a standalone leaf coerces it to a parsed range — so the
items of a list are not compiled. -/
theorem c6_list_item_left_uncompiled :
    compile extZero (.ListRule (.cons (.IPV4Rule (.vstr "192.168.0.1")) .nil)) =
      .ok (.ListRule (.cons (.IPV4Rule (.vstr "192.168.0.1")) .nil)) ∧
    compile extZero (.IPV4Rule (.vstr "192.168.0.1")) =
      .ok (.IPV4Rule (.vip (.ip4 3232235521))) ∧
    Rule.IPV4Rule (.vstr "192.168.0.1") ≠ .IPV4Rule (.vip (.ip4 3232235521)) :=
  ⟨by decide, by decide, by decide⟩

/-- C6, amended: the compiler's `list` callback returns every `ListRule`
(and `IPListRule`) entirely unchanged — items included, uncompiled; list
items are only coerced when the list is the value side of a comparison whose
variable path is in the coercion table. -/
theorem c6_list_passes_through_unchanged :
    ∀ ext rs, compile ext (.ListRule rs) = .ok (.ListRule rs) ∧
      compile ext (.IPListRule rs) = .ok (.IPListRule rs) :=
  fun _ _ => ⟨rfl, rfl⟩

/-- C9: a malformed literal aborts compilation with an error instead of
passing through: any string the IPv4 parser rejects, compared against
`Source.IP4`, raises the parse error; and timestamp coercion of a value that
is neither numeric (Python `float` fails) nor `TIMESTAMP_RE`-shaped raises
the explicit `"Wrong Timestamp"` error. -/
theorem c9_malformed_literals_are_fatal :
    (∀ ext op s, from_str_v4 s = none →
        compile ext (.ComparisonBinOpRule op (.VariableRule "Source.IP4")
          (.ConstantRule (.vstr s))) = .error "ParseLiteralError") ∧
    (∀ ext s, parseFloat s = none → timestamp_re_match s = none →
        compile_datetime ext (.ConstantRule (.vstr s)) = .error "Wrong Timestamp") := by
  constructor
  · intro ext op s h
    have hclean : clean_variable "Source.IP4" = "Source.IP4" := by decide
    simp [compile, compileM, comparisonStep, selectVarVal, hclean,
      compilations_idea_object, listRuleItems, comp_i, compile_ip_v4,
      ruleValueAttr, isRangeVal, h, Except.map]
  · intro ext s h1 h2
    simp [compile_datetime, ruleValueAttr, isDatetimeVal, pyFloatOfVal,
      pyStrOfVal, h1, h2]

/-- C9 witness: the theorem applied at the malformed IPv4 literal
`"not.an.ip"` and the malformed timestamp `"bogus"`. -/
theorem c9_malformed_literals_are_fatal_witness :
    from_str_v4 "not.an.ip" = none ∧
    parseFloat "bogus" = none ∧
    timestamp_re_match "bogus" = none ∧
    compile extZero (.ComparisonBinOpRule "OP_EQ" (.VariableRule "Source.IP4")
      (.ConstantRule (.vstr "not.an.ip"))) = .error "ParseLiteralError" ∧
    compile_datetime extZero (.ConstantRule (.vstr "bogus")) = .error "Wrong Timestamp" :=
  ⟨by decide, by decide, by decide,
   c9_malformed_literals_are_fatal.1 extZero "OP_EQ" "not.an.ip" (by decide),
   c9_malformed_literals_are_fatal.2 extZero "bogus" (by decide) (by decide)⟩

/-- C5: constant folding of `MathBinOp`. Two integer literals fold through
the external arithmetic evaluator into one integer literal (scalar result)
or a list of integer literals (broadcast sequence result); two number
literals that are not both integers fold the same way into float literal(s);
children that are not both number literals rebuild the node unfolded with
the compiled children. -/
theorem c5_math_constant_folding :
    (∀ ext op a b v, ext.evaluate_binop_math op (.vint a) (.vint b) = .scalar v →
        compile ext (.MathBinOpRule op (.IntegerRule (.vint a)) (.IntegerRule (.vint b))) =
          .ok (.IntegerRule v)) ∧
    (∀ ext op a b vs, ext.evaluate_binop_math op (.vint a) (.vint b) = .values vs →
        compile ext (.MathBinOpRule op (.IntegerRule (.vint a)) (.IntegerRule (.vint b))) =
          .ok (.ListRule (wrapVals (fun v => .IntegerRule v) vs))) ∧
    (∀ ext op l r l' r' tl tr v, compileM ext l = .ok (l', tl) →
        compileM ext r = .ok (r', tr) →
        isNumberRule l' = true → isNumberRule r' = true →
        (isIntegerRule l' && isIntegerRule r') = false →
        ext.evaluate_binop_math op (numValue l') (numValue r') = .scalar v →
        compile ext (.MathBinOpRule op l r) = .ok (.FloatRule v)) ∧
    (∀ ext op l r l' r' tl tr vs, compileM ext l = .ok (l', tl) →
        compileM ext r = .ok (r', tr) →
        isNumberRule l' = true → isNumberRule r' = true →
        (isIntegerRule l' && isIntegerRule r') = false →
        ext.evaluate_binop_math op (numValue l') (numValue r') = .values vs →
        compile ext (.MathBinOpRule op l r) =
          .ok (.ListRule (wrapVals (fun v => .FloatRule v) vs))) ∧
    (∀ ext op l r l' r' tl tr, compileM ext l = .ok (l', tl) →
        compileM ext r = .ok (r', tr) →
        (isNumberRule l' && isNumberRule r') = false →
        compile ext (.MathBinOpRule op l r) = .ok (.MathBinOpRule op l' r')) := by
  refine ⟨?_, ?_, ?_, ?_, ?_⟩
  · intro ext op a b v h
    simp [compile, compileM, pyIntOfVal, mathStep, isIntegerRule, numValue, h, Except.map]
  · intro ext op a b vs h
    simp [compile, compileM, pyIntOfVal, mathStep, isIntegerRule, numValue, h, Except.map]
  · intro ext op l r l' r' tl tr v hl hr hnl hnr hni hv
    simp [compile, compileM, hl, hr, mathStep, hni, hnl, hnr, hv, Except.map]
  · intro ext op l r l' r' tl tr vs hl hr hnl hnr hni hv
    simp [compile, compileM, hl, hr, mathStep, hni, hnl, hnr, hv, Except.map]
  · intro ext op l r l' r' tl tr hl hr hn
    have hni : (isIntegerRule l' && isIntegerRule r') = false := by
      cases l' <;> cases r' <;> simp_all [isIntegerRule, isNumberRule]
    simp [compile, compileM, hl, hr, mathStep, hni, hn, Except.map]

/-- C5 witness: the folding theorem applied with a concrete arithmetic
capability (always the integer scalar `0`) at concrete literal operands for
the integer, the mixed-number and the non-numeric branches. -/
theorem c5_math_constant_folding_witness :
    extZero.evaluate_binop_math "OP_PLUS" (.vint 2) (.vint 3) = .scalar (.vint 0) ∧
    compile extZero (.MathBinOpRule "OP_PLUS"
      (.IntegerRule (.vint 2)) (.IntegerRule (.vint 3))) = .ok (.IntegerRule (.vint 0)) ∧
    compile extZero (.MathBinOpRule "OP_PLUS"
      (.FloatRule (.vint 1)) (.IntegerRule (.vint 2))) = .ok (.FloatRule (.vint 0)) ∧
    compile extZero (.MathBinOpRule "OP_PLUS"
      (.ConstantRule (.vstr "x")) (.IntegerRule (.vint 2))) =
      .ok (.MathBinOpRule "OP_PLUS" (.ConstantRule (.vstr "x")) (.IntegerRule (.vint 2))) :=
  ⟨rfl,
   c5_math_constant_folding.1 extZero "OP_PLUS" 2 3 (.vint 0) rfl,
   (c5_math_constant_folding.2.2.1 extZero "OP_PLUS"
     (.FloatRule (.vint 1)) (.IntegerRule (.vint 2))
     (.FloatRule (.vint 1)) (.IntegerRule (.vint 2)) [] [⟨.vint 2, .vint 2⟩] (.vint 0)
     rfl rfl rfl rfl rfl rfl),
   (c5_math_constant_folding.2.2.2.2 extZero "OP_PLUS"
     (.ConstantRule (.vstr "x")) (.IntegerRule (.vint 2))
     (.ConstantRule (.vstr "x")) (.IntegerRule (.vint 2)) [] [⟨.vint 2, .vint 2⟩]
     rfl rfl rfl)⟩

/-- Helper: `values()` of a list of parsed IP literal rules is the ordered
list of their `value` attributes. -/
theorem attrValues_parsed : (rs : RuleList) →
    (∀ r ∈ rs.toList, isParsedIPLit r = true) →
    attrValues rs = .ok (rs.toList.map (fun r => AttrVal.val (litValueD r)))
  | .nil, _ => rfl
  | .cons r rs, h => by
      have hr := h r (by simp [RuleList.toList])
      have ih := attrValues_parsed rs
        (fun x hx => h x (by simp [RuleList.toList]; exact Or.inr hx))
      unfold attrValues
      cases r with
      | IPV4Rule v =>
          cases v <;> simp [isParsedIPLit] at hr
          simp [ruleAttrValue, ih, RuleList.toList, litValueD, ruleValueAttr]
      | IPV6Rule v =>
          cases v <;> simp [isParsedIPLit] at hr
          simp [ruleAttrValue, ih, RuleList.toList, litValueD, ruleValueAttr]
      | DatetimeRule v => simp [isParsedIPLit] at hr
      | IntegerRule v => simp [isParsedIPLit] at hr
      | FloatRule v => simp [isParsedIPLit] at hr
      | ConstantRule v => simp [isParsedIPLit] at hr
      | VariableRule p => simp [isParsedIPLit] at hr
      | ListRule rs2 => simp [isParsedIPLit] at hr
      | IPListRule rs2 => simp [isParsedIPLit] at hr
      | LogicalBinOpRule op l r2 => simp [isParsedIPLit] at hr
      | ComparisonBinOpRule op l r2 => simp [isParsedIPLit] at hr
      | MathBinOpRule op l r2 => simp [isParsedIPLit] at hr
      | UnaryOperationRule op r2 => simp [isParsedIPLit] at hr

/-- C10: evaluating a compiler-produced IP-list node with the record
evaluator yields, for any record (any path-resolution capability), the
ordered sequence of the underlying parsed IP range values wrapped in the
special `ListIP` sequence type — the values, not the rule nodes. -/
theorem c10_iplist_evaluates_to_range_values :
    ∀ ev rs, (∀ r ∈ RuleList.toList rs, isParsedIPLit r = true) →
      dataObjectFilter ev (.IPListRule rs) =
        .ok (.iplistv (rs.toList.map (fun r => .val (litValueD r)))) ∧
      ∀ r ∈ RuleList.toList rs, isRangeVal (litValueD r) = true := by
  intro ev rs h
  constructor
  · simp [dataObjectFilter, attrValues_parsed rs h, Except.map]
  · intro r hr
    have hx := h r hr
    cases r with
    | IPV4Rule v =>
        cases v <;> simp_all [isParsedIPLit, litValueD, ruleValueAttr, isRangeVal]
    | IPV6Rule v =>
        cases v <;> simp_all [isParsedIPLit, litValueD, ruleValueAttr, isRangeVal]
    | DatetimeRule v => simp [isParsedIPLit] at hx
    | IntegerRule v => simp [isParsedIPLit] at hx
    | FloatRule v => simp [isParsedIPLit] at hx
    | ConstantRule v => simp [isParsedIPLit] at hx
    | VariableRule p => simp [isParsedIPLit] at hx
    | ListRule rs2 => simp [isParsedIPLit] at hx
    | IPListRule rs2 => simp [isParsedIPLit] at hx
    | LogicalBinOpRule op l r2 => simp [isParsedIPLit] at hx
    | ComparisonBinOpRule op l r2 => simp [isParsedIPLit] at hx
    | MathBinOpRule op l r2 => simp [isParsedIPLit] at hx
    | UnaryOperationRule op r2 => simp [isParsedIPLit] at hx

/-- C10 witness: the theorem applied to a one-element IP list and a concrete
evaluation capability. -/
theorem c10_iplist_evaluates_to_range_values_witness :
    (∀ r ∈ RuleList.toList (.cons (.IPV4Rule (.vip (.ip4 5))) .nil),
      isParsedIPLit r = true) ∧
    dataObjectFilter evalCapStub
        (.IPListRule (.cons (.IPV4Rule (.vip (.ip4 5))) .nil)) =
      .ok (.iplistv [.val (.vip (.ip4 5))]) :=
  ⟨by decide,
   (c10_iplist_evaluates_to_range_values evalCapStub
     (.cons (.IPV4Rule (.vip (.ip4 5))) .nil) (by decide)).1⟩

/-- Helper: the cleaning scan copies bracket-free text verbatim. -/
theorem cleanAux_no_bracket (s : List Char) (hs : ∀ c ∈ s, c ≠ '[') :
    ∀ rest, cleanAux none (s ++ rest) = s ++ cleanAux none rest := by
  induction s with
  | nil => intro rest; rfl
  | cons c s ih =>
      intro rest
      have hc : ¬(c = '[') := hs c (List.mem_cons_self c s)
      simp only [List.cons_append, cleanAux, if_neg hc]
      exact congrArg (List.cons c) (ih (fun x hx => hs x (List.mem_cons_of_mem c hx)) rest)

/-- Helper: with a pending bracket and a nonempty digit run ending in `]`,
the scan drops the whole bracketed group. -/
theorem cleanAux_digits (ds : List Char) : ∀ acc rest, allDigits ds = true →
    (acc ≠ [] ∨ ds ≠ []) →
    cleanAux (some acc) (ds ++ ']' :: rest) = cleanAux none rest := by
  induction ds with
  | nil =>
      intro acc rest _ h
      have hacc : acc ≠ [] := by
        rcases h with h | h
        · exact h
        · exact absurd rfl h
      cases acc with
      | nil => exact absurd rfl hacc
      | cons a as => simp [cleanAux]
  | cons d ds ih =>
      intro acc rest hd h
      have hd' : d.isDigit = true ∧ allDigits ds = true := by
        simpa [allDigits] using hd
      simp only [List.cons_append, cleanAux, if_pos hd'.1]
      exact ih (d :: acc) rest hd'.2 (Or.inl (by simp))

/-- Helper: a complete bracketed numeric index is removed by the scan. -/
theorem cleanAux_idx (d rest : List Char) (hd1 : d ≠ []) (hd2 : allDigits d = true) :
    cleanAux none ('[' :: (d ++ ']' :: rest)) = cleanAux none rest := by
  simp only [cleanAux, if_pos rfl]
  exact cleanAux_digits d [] rest hd2 (Or.inr hd1)

/-- Helper: on a path spelled from well-formed segments, the scan removes
exactly the bracketed numeric index segments. -/
theorem cleanAux_renderPath (segs : List PathSeg)
    (h : ∀ sg ∈ segs, goodSeg sg = true) :
    cleanAux none (renderPathChars segs) = renderPathChars (segs.filter segIsPlain) := by
  induction segs with
  | nil => rfl
  | cons sg segs ih =>
      have hsg := h sg (List.mem_cons_self sg segs)
      have ht := fun x hx => h x (List.mem_cons_of_mem sg hx)
      cases sg with
      | plain s =>
          have hs : ∀ c ∈ s.toList, c ≠ '[' := by
            simpa [goodSeg] using hsg
          simp only [renderPathChars, renderSegChars, List.filter, segIsPlain]
          rw [cleanAux_no_bracket s.toList hs, ih ht]
      | idx d =>
          have hsg' : d.toList.isEmpty = false ∧ allDigits d.toList = true := by
            simpa [goodSeg] using hsg
          have hne : d.toList ≠ [] := by
            intro hN
            rw [hN] at hsg'
            simp at hsg'
          have harr : renderSegChars (PathSeg.idx d) ++ renderPathChars segs =
              '[' :: (d.toList ++ ']' :: renderPathChars segs) := by
            simp [renderSegChars]
          simp only [renderPathChars, List.filter, segIsPlain]
          rw [harr, cleanAux_idx d.toList (renderPathChars segs) hne hsg'.2, ih ht]

/-- C8: path canonicalization removes every bracketed numeric index segment
(first conjunct, over arbitrary well-formed segment spellings), canonicalizes
`"Source.IP4[2]"` to `"Source.IP4"` (second conjunct), and compiling a
comparison with the indexed variable path applies exactly the same coercion
to the value side as the unindexed path — for every value operand (third
conjunct), and in particular coercing a raw IPv4 string to a parsed range
while keeping the variable's own path indexed (fourth conjunct). -/
theorem c8_index_stripping_canonicalizes_lookup :
    (∀ segs : List PathSeg, (∀ sg ∈ segs, goodSeg sg = true) →
        clean_variable (renderPath segs) = renderPath (segs.filter segIsPlain)) ∧
    clean_variable "Source.IP4[2]" = "Source.IP4" ∧
    (∀ ext op v,
        (compile ext (.ComparisonBinOpRule op (.VariableRule "Source.IP4[2]") v)).map
            valueSideOf =
        (compile ext (.ComparisonBinOpRule op (.VariableRule "Source.IP4") v)).map
            valueSideOf) ∧
    (∀ ext op, compile ext (.ComparisonBinOpRule op (.VariableRule "Source.IP4[2]")
        (.ConstantRule (.vstr "192.168.0.1"))) =
      .ok (.ComparisonBinOpRule op (.VariableRule "Source.IP4[2]")
        (.IPV4Rule (.vip (.ip4 3232235521))))) := by
  refine ⟨?_, by decide, ?_, fun ext op => rfl⟩
  · intro segs h
    show String.mk (cleanAux none (renderPathChars segs)) = _
    rw [cleanAux_renderPath segs h]
    rfl
  · intro ext op v
    have hc1 : clean_variable "Source.IP4[2]" = "Source.IP4" := by decide
    have hc2 : clean_variable "Source.IP4" = "Source.IP4" := by decide
    have htab : compilations_idea_object "Source.IP4" = some (.cip4, .ipl) := by decide
    simp only [compile, compileM]
    cases hv : compileM ext v with
    | error e => rfl
    | ok q =>
        obtain ⟨v', tv⟩ := q
        simp only []
        cases v' with
        | VariableRule q => rfl
        | ListRule items =>
            simp only [comparisonStep, selectVarVal, hc1, hc2, htab, listRuleItems]
            cases hco : coerceItems .cip4 ext items <;>
              simp [hco, valueSideOf, Except.map]
        | IPListRule items =>
            simp only [comparisonStep, selectVarVal, hc1, hc2, htab, listRuleItems]
            cases hco : coerceItems .cip4 ext items <;>
              simp [hco, valueSideOf, Except.map]
        | IPV4Rule w =>
            simp only [comparisonStep, selectVarVal, hc1, hc2, htab, listRuleItems]
            cases hcomp : comp_i .cip4 ext (.IPV4Rule w) <;>
              simp [hcomp, valueSideOf, Except.map]
        | IPV6Rule w =>
            simp only [comparisonStep, selectVarVal, hc1, hc2, htab, listRuleItems]
            cases hcomp : comp_i .cip4 ext (.IPV6Rule w) <;>
              simp [hcomp, valueSideOf, Except.map]
        | DatetimeRule w =>
            simp only [comparisonStep, selectVarVal, hc1, hc2, htab, listRuleItems]
            cases hcomp : comp_i .cip4 ext (.DatetimeRule w) <;>
              simp [hcomp, valueSideOf, Except.map]
        | IntegerRule w =>
            simp only [comparisonStep, selectVarVal, hc1, hc2, htab, listRuleItems]
            cases hcomp : comp_i .cip4 ext (.IntegerRule w) <;>
              simp [hcomp, valueSideOf, Except.map]
        | FloatRule w =>
            simp only [comparisonStep, selectVarVal, hc1, hc2, htab, listRuleItems]
            cases hcomp : comp_i .cip4 ext (.FloatRule w) <;>
              simp [hcomp, valueSideOf, Except.map]
        | ConstantRule w =>
            simp only [comparisonStep, selectVarVal, hc1, hc2, htab, listRuleItems]
            cases hcomp : comp_i .cip4 ext (.ConstantRule w) <;>
              simp [hcomp, valueSideOf, Except.map]
        | LogicalBinOpRule op2 a b => rfl
        | ComparisonBinOpRule op2 a b => rfl
        | MathBinOpRule op2 a b => rfl
        | UnaryOperationRule op2 a => rfl

/-- C8 witness: the canonicalization theorem applied to the concrete segment
spelling `"Source.IP4" ++ "[2]"` and to a concrete comparison operand. -/
theorem c8_index_stripping_canonicalizes_lookup_witness :
    (∀ sg ∈ [PathSeg.plain "Source.IP4", PathSeg.idx "2"], goodSeg sg = true) ∧
    clean_variable (renderPath [PathSeg.plain "Source.IP4", PathSeg.idx "2"]) =
      renderPath ([PathSeg.plain "Source.IP4", PathSeg.idx "2"].filter segIsPlain) ∧
    (compile extZero (.ComparisonBinOpRule "OP_EQ" (.VariableRule "Source.IP4[2]")
        (.ConstantRule (.vstr "10.0.0.1")))).map valueSideOf =
    (compile extZero (.ComparisonBinOpRule "OP_EQ" (.VariableRule "Source.IP4")
        (.ConstantRule (.vstr "10.0.0.1")))).map valueSideOf :=
  ⟨by decide,
   c8_index_stripping_canonicalizes_lookup.1
     [PathSeg.plain "Source.IP4", PathSeg.idx "2"] (by decide),
   c8_index_stripping_canonicalizes_lookup.2.2.1 extZero "OP_EQ"
     (.ConstantRule (.vstr "10.0.0.1"))⟩

/-- Helper: a successful `compile_ip_v4` either passes a range-valued rule
through or builds a fresh range-valued `IPV4Rule`. -/
theorem compile_ip_v4_ok {r r' : Rule} (h : compile_ip_v4 r = .ok r') :
    (r' = r ∧ ∃ v, ruleValueAttr r = some v ∧ isRangeVal v = true) ∨
    ∃ rng, r' = .IPV4Rule (.vip rng) := by
  unfold compile_ip_v4 at h
  cases hA : ruleValueAttr r with
  | none => rw [hA] at h; simp at h
  | some v =>
      rw [hA] at h
      simp only [] at h
      by_cases hR : isRangeVal v = true
      · rw [if_pos hR] at h
        simp at h
        exact Or.inl ⟨h.symm, v, rfl, hR⟩
      · rw [if_neg hR] at h
        cases v with
        | vstr s =>
            simp only [] at h
            cases hP : from_str_v4 s with
            | none => rw [hP] at h; simp at h
            | some rng => rw [hP] at h; simp at h; exact Or.inr ⟨rng, h.symm⟩
        | vint n => simp at h
        | vfloat q => simp at h
        | vip rng => simp at h
        | vdt t => simp at h

/-- Helper: a successful `compile_ip_v6` either passes a range-valued rule
through or builds a fresh range-valued `IPV6Rule`. -/
theorem compile_ip_v6_ok {r r' : Rule} (h : compile_ip_v6 r = .ok r') :
    (r' = r ∧ ∃ v, ruleValueAttr r = some v ∧ isRangeVal v = true) ∨
    ∃ rng, r' = .IPV6Rule (.vip rng) := by
  unfold compile_ip_v6 at h
  cases hA : ruleValueAttr r with
  | none => rw [hA] at h; simp at h
  | some v =>
      rw [hA] at h
      simp only [] at h
      by_cases hR : isRangeVal v = true
      · rw [if_pos hR] at h
        simp at h
        exact Or.inl ⟨h.symm, v, rfl, hR⟩
      · rw [if_neg hR] at h
        cases v with
        | vstr s =>
            simp only [] at h
            cases hP : from_str_v6 s with
            | none => rw [hP] at h; simp at h
            | some rng => rw [hP] at h; simp at h; exact Or.inr ⟨rng, h.symm⟩
        | vint n => simp at h
        | vfloat q => simp at h
        | vip rng => simp at h
        | vdt t => simp at h

/-- Helper: a successful `compile_datetime` either passes an instant-valued
rule through or builds a fresh instant-valued `DatetimeRule`. -/
theorem compile_datetime_ok {ext : ExtCap} {r r' : Rule}
    (h : compile_datetime ext r = .ok r') :
    (r' = r ∧ ∃ t, ruleValueAttr r = some (.vdt t)) ∨
    ∃ t, r' = .DatetimeRule (.vdt t) := by
  unfold compile_datetime at h
  cases hA : ruleValueAttr r with
  | none => rw [hA] at h; simp at h
  | some v =>
      rw [hA] at h
      simp only [] at h
      by_cases hD : isDatetimeVal v = true
      · rw [if_pos hD] at h
        simp at h
        cases v with
        | vdt t => exact Or.inl ⟨h.symm, t, rfl⟩
        | vstr s => simp [isDatetimeVal] at hD
        | vint n => simp [isDatetimeVal] at hD
        | vfloat q => simp [isDatetimeVal] at hD
        | vip rng => simp [isDatetimeVal] at hD
      · rw [if_neg hD] at h
        cases hF : pyFloatOfVal v with
        | some q => rw [hF] at h; simp at h; exact Or.inr ⟨_, h.symm⟩
        | none =>
            rw [hF] at h
            cases hM : timestamp_re_match (pyStrOfVal v) with
            | none => rw [hM] at h; simp at h
            | some m =>
                rw [hM] at h
                simp only [] at h
                cases hZ : zoneSplitMinutes m.zone with
                | error e => rw [hZ] at h; simp at h
                | ok zmin =>
                    rw [hZ] at h
                    simp only [] at h
                    by_cases hV : validDatetime (natOfDigits m.ys.toList)
                        (natOfDigits m.mos.toList) (natOfDigits m.ds.toList)
                        (natOfDigits m.hs.toList) (natOfDigits m.mins.toList)
                        (natOfDigits m.ss.toList)
                        (natOfDigits (((m.frac.getD "0").toList).take 6) *
                          10 ^ (6 - (((m.frac.getD "0").toList).take 6).length)) = true
                    · rw [if_pos hV] at h
                      simp at h
                      exact Or.inr ⟨_, h.symm⟩
                    · rw [if_neg hV] at h
                      simp at h

/-- Helper: `compile_ip_v4` is idempotent on success. -/
theorem compile_ip_v4_idem {r r' : Rule} (h : compile_ip_v4 r = .ok r') :
    compile_ip_v4 r' = .ok r' := by
  rcases compile_ip_v4_ok h with ⟨rfl, v, hA, hR⟩ | ⟨rng, rfl⟩
  · unfold compile_ip_v4
    rw [hA]
    simp [hR]
  · rfl

/-- Helper: `compile_ip_v6` is idempotent on success. -/
theorem compile_ip_v6_idem {r r' : Rule} (h : compile_ip_v6 r = .ok r') :
    compile_ip_v6 r' = .ok r' := by
  rcases compile_ip_v6_ok h with ⟨rfl, v, hA, hR⟩ | ⟨rng, rfl⟩
  · unfold compile_ip_v6
    rw [hA]
    simp [hR]
  · rfl

/-- Helper: `compile_datetime` is idempotent on success. -/
theorem compile_datetime_idem {ext : ExtCap} {r r' : Rule}
    (h : compile_datetime ext r = .ok r') : compile_datetime ext r' = .ok r' := by
  rcases compile_datetime_ok h with ⟨rfl, t, hA⟩ | ⟨t, rfl⟩
  · unfold compile_datetime
    rw [hA]
    simp [isDatetimeVal]
  · rfl

/-- Helper: the shape of a successful scalar coercion: the input passed
through, or a freshly built range/instant literal. -/
theorem comp_i_ok {k : CompKind} {ext : ExtCap} {x out : Rule}
    (h : comp_i k ext x = .ok out) :
    out = x ∨ (∃ rng, out = .IPV4Rule (.vip rng)) ∨
    (∃ rng, out = .IPV6Rule (.vip rng)) ∨ (∃ t, out = .DatetimeRule (.vdt t)) := by
  cases k with
  | cdt =>
      rcases compile_datetime_ok h with ⟨rfl, _⟩ | ⟨t, rfl⟩
      · exact Or.inl rfl
      · exact Or.inr (Or.inr (Or.inr ⟨t, rfl⟩))
  | cip4 =>
      rcases compile_ip_v4_ok h with ⟨rfl, _⟩ | ⟨rng, rfl⟩
      · exact Or.inl rfl
      · exact Or.inr (Or.inl ⟨rng, rfl⟩)
  | cip6 =>
      rcases compile_ip_v6_ok h with ⟨rfl, _⟩ | ⟨rng, rfl⟩
      · exact Or.inl rfl
      · exact Or.inr (Or.inr (Or.inl ⟨rng, rfl⟩))

/-- Helper: scalar coercion is idempotent on success. -/
theorem comp_i_idem {k : CompKind} {ext : ExtCap} {x out : Rule}
    (h : comp_i k ext x = .ok out) : comp_i k ext out = .ok out := by
  cases k with
  | cdt => exact compile_datetime_idem h
  | cip4 => exact compile_ip_v4_idem h
  | cip6 => exact compile_ip_v6_idem h

/-- Helper: item coercion is idempotent on success. -/
theorem coerceItems_idem {k : CompKind} {ext : ExtCap} : (items : RuleList) →
    ∀ outs, coerceItems k ext items = .ok outs →
      coerceItems k ext outs = .ok outs
  | .nil => fun outs h => by
      unfold coerceItems at h
      simp at h
      rw [← h]
      rfl
  | .cons r rs => fun outs h => by
      unfold coerceItems at h
      cases hci : comp_i k ext r with
      | error e => rw [hci] at h; simp at h
      | ok r' =>
          rw [hci] at h
          simp only [] at h
          cases hco : coerceItems k ext rs with
          | error e => rw [hco] at h; simp at h
          | ok rs' =>
              rw [hco] at h
              simp at h
              rw [← h]
              unfold coerceItems
              rw [comp_i_idem hci]
              simp only []
              rw [coerceItems_idem rs rs' hco]

/-- Helper: a rule recognized as a variable is a `VariableRule`. -/
theorem exists_var_of {x : Rule} (h : isVariableRule x = true) :
    ∃ p, x = .VariableRule p := by
  cases x <;> simp [isVariableRule] at h
  exact ⟨_, rfl⟩

/-- Helper: selection with the variable on the left. -/
theorem selectVarVal_left (p : String) {x : Rule} (hx : isVariableRule x = false) :
    selectVarVal (.VariableRule p) x = some (p, x) := by
  cases x <;> simp_all [selectVarVal, isVariableRule]

/-- Helper: selection with the variable on the right. -/
theorem selectVarVal_right (p : String) {x : Rule} (hx : isVariableRule x = false) :
    selectVarVal x (.VariableRule p) = some (p, x) := by
  cases x <;> simp_all [selectVarVal, isVariableRule]

/-- Helper: no selection when neither side is a variable. -/
theorem selectVarVal_nonvar {a b : Rule} (ha : isVariableRule a = false)
    (hb : isVariableRule b = false) : selectVarVal a b = none := by
  cases a <;> cases b <;> simp_all [selectVarVal, isVariableRule]

/-- Helper: the table's list constructors build compiled rules. -/
theorem comp_l_isCompiled (ext : ExtCap) (lc : ListCtor) (outs : RuleList) :
    isCompiledB ext (comp_l lc outs) = true := by
  cases lc <;> rfl

/-- Helper: the table's list constructors never build a variable. -/
theorem comp_l_nonvar (lc : ListCtor) (outs : RuleList) :
    isVariableRule (comp_l lc outs) = false := by
  cases lc <;> rfl

/-- Helper: the items of a constructed list rule. -/
theorem comp_l_items (lc : ListCtor) (outs : RuleList) :
    listRuleItems (comp_l lc outs) = some outs := by
  cases lc <;> rfl

/-- Helper: successful scalar coercion preserves compiledness. -/
theorem comp_i_isCompiled {k : CompKind} {ext : ExtCap} {x out : Rule}
    (h : comp_i k ext x = .ok out) (hx : isCompiledB ext x = true) :
    isCompiledB ext out = true := by
  rcases comp_i_ok h with rfl | ⟨rng, rfl⟩ | ⟨rng, rfl⟩ | ⟨t, rfl⟩
  · exact hx
  · rfl
  · rfl
  · rfl

/-- Helper: successful scalar coercion of a non-variable non-list rule
yields a non-variable rule whose `listRuleItems` is `none`. -/
theorem comp_i_shape {k : CompKind} {ext : ExtCap} {x out : Rule}
    (h : comp_i k ext x = .ok out) (hv : isVariableRule x = false)
    (hi : listRuleItems x = none) :
    isVariableRule out = false ∧ listRuleItems out = none := by
  rcases comp_i_ok h with rfl | ⟨rng, rfl⟩ | ⟨rng, rfl⟩ | ⟨t, rfl⟩
  · exact ⟨hv, hi⟩
  · exact ⟨rfl, rfl⟩
  · exact ⟨rfl, rfl⟩
  · exact ⟨rfl, rfl⟩

/-- Helper: splitting `isCompiledB` on a comparison node. -/
theorem isCompiledB_comparison {ext : ExtCap} {op : String} {l r : Rule} :
    isCompiledB ext (.ComparisonBinOpRule op l r) = true ↔
      (isCompiledB ext l = true ∧ isCompiledB ext r = true ∧
        comparisonStep ext op l r = .ok (.ComparisonBinOpRule op l r)) := by
  simp [isCompiledB, Bool.and_eq_true, decide_eq_true_eq, and_assoc]

/-- Helper: splitting `isCompiledB` on a math node. -/
theorem isCompiledB_math {ext : ExtCap} {op : String} {l r : Rule} :
    isCompiledB ext (.MathBinOpRule op l r) = true ↔
      (isCompiledB ext l = true ∧ isCompiledB ext r = true ∧
        (isNumberRule l && isNumberRule r) = false) := by
  cases hnl : isNumberRule l <;> cases hnr : isNumberRule r <;>
    simp [isCompiledB, Bool.and_eq_true, and_assoc, hnl, hnr]

/-- Helper: the comparison callback, run on compiled children, produces a
compiled node (in particular the table coercion it performs is stable under
a second compilation). -/
theorem comparisonStep_ok_compiled {ext : ExtCap} {op : String} {l r out : Rule}
    (hl : isCompiledB ext l = true) (hr : isCompiledB ext r = true)
    (h : comparisonStep ext op l r = .ok out) : isCompiledB ext out = true := by
  by_cases hL : isVariableRule l = true
  · obtain ⟨p, rfl⟩ := exists_var_of hL
    by_cases hR : isVariableRule r = true
    · obtain ⟨q, rfl⟩ := exists_var_of hR
      unfold comparisonStep at h
      simp [selectVarVal] at h
      rw [← h]
      exact isCompiledB_comparison.mpr ⟨rfl, rfl, rfl⟩
    · have hRf : isVariableRule r = false := by simpa using hR
      have hsel := selectVarVal_left p hRf
      unfold comparisonStep at h
      rw [hsel] at h
      simp only [] at h
      cases hT : compilations_idea_object (clean_variable p) with
      | none =>
          rw [hT] at h
          simp at h
          rw [← h]
          refine isCompiledB_comparison.mpr ⟨rfl, hr, ?_⟩
          unfold comparisonStep
          rw [hsel]
          simp only []
          rw [hT]
      | some kl =>
          obtain ⟨k, lc⟩ := kl
          rw [hT] at h
          simp only [] at h
          cases hI : listRuleItems r with
          | some items =>
              rw [hI] at h
              simp only [] at h
              cases hco : coerceItems k ext items with
              | error e => rw [hco] at h; simp at h
              | ok outs =>
                  rw [hco] at h
                  simp at h
                  rw [← h]
                  refine isCompiledB_comparison.mpr
                    ⟨rfl, comp_l_isCompiled ext lc outs, ?_⟩
                  unfold comparisonStep
                  rw [selectVarVal_left p (comp_l_nonvar lc outs)]
                  simp only []
                  rw [hT]
                  simp only []
                  rw [comp_l_items lc outs]
                  simp only []
                  rw [coerceItems_idem items outs hco]
          | none =>
              rw [hI] at h
              simp only [] at h
              cases hci : comp_i k ext r with
              | error e => rw [hci] at h; simp at h
              | ok out_i =>
                  rw [hci] at h
                  simp at h
                  rw [← h]
                  obtain ⟨hv', hi'⟩ := comp_i_shape hci hRf hI
                  refine isCompiledB_comparison.mpr
                    ⟨rfl, comp_i_isCompiled hci hr, ?_⟩
                  unfold comparisonStep
                  rw [selectVarVal_left p hv']
                  simp only []
                  rw [hT]
                  simp only []
                  rw [hi']
                  simp only []
                  rw [comp_i_idem hci]
  · have hLf : isVariableRule l = false := by simpa using hL
    by_cases hR : isVariableRule r = true
    · obtain ⟨p, rfl⟩ := exists_var_of hR
      have hsel := selectVarVal_right p hLf
      unfold comparisonStep at h
      rw [hsel] at h
      simp only [] at h
      cases hT : compilations_idea_object (clean_variable p) with
      | none =>
          rw [hT] at h
          simp at h
          rw [← h]
          refine isCompiledB_comparison.mpr ⟨hl, rfl, ?_⟩
          unfold comparisonStep
          rw [hsel]
          simp only []
          rw [hT]
      | some kl =>
          obtain ⟨k, lc⟩ := kl
          rw [hT] at h
          simp only [] at h
          cases hI : listRuleItems l with
          | some items =>
              rw [hI] at h
              simp only [] at h
              cases hco : coerceItems k ext items with
              | error e => rw [hco] at h; simp at h
              | ok outs =>
                  rw [hco] at h
                  simp at h
                  rw [← h]
                  refine isCompiledB_comparison.mpr
                    ⟨hl, comp_l_isCompiled ext lc outs, ?_⟩
                  unfold comparisonStep
                  rw [selectVarVal_nonvar hLf (comp_l_nonvar lc outs)]
          | none =>
              rw [hI] at h
              simp only [] at h
              cases hci : comp_i k ext l with
              | error e => rw [hci] at h; simp at h
              | ok out_i =>
                  rw [hci] at h
                  simp at h
                  rw [← h]
                  obtain ⟨hv', hi'⟩ := comp_i_shape hci hLf hI
                  refine isCompiledB_comparison.mpr
                    ⟨hl, comp_i_isCompiled hci hl, ?_⟩
                  unfold comparisonStep
                  rw [selectVarVal_nonvar hLf hv']
    · have hRf : isVariableRule r = false := by simpa using hR
      unfold comparisonStep at h
      rw [selectVarVal_nonvar hLf hRf] at h
      simp at h
      rw [← h]
      refine isCompiledB_comparison.mpr ⟨hl, hr, ?_⟩
      unfold comparisonStep
      rw [selectVarVal_nonvar hLf hRf]

/-- Helper: a compiled integer literal holds an `int`. -/
theorem exists_int_lit {ext : ExtCap} {x : Rule} (hi : isIntegerRule x = true)
    (hc : isCompiledB ext x = true) : ∃ a, x = .IntegerRule (.vint a) := by
  cases x <;> simp [isIntegerRule] at hi
  next v =>
    cases v <;> simp [isCompiledB, isIntVal] at hc
    exact ⟨_, rfl⟩

/-- Helper: the math callback, run on compiled children with a well-behaved
arithmetic capability, produces a compiled node. -/
theorem mathStep_compiled {ext : ExtCap} {op : String} {l r : Rule}
    (hev : EvOK ext) (hl : isCompiledB ext l = true)
    (hr : isCompiledB ext r = true) :
    isCompiledB ext (mathStep ext op l r) = true := by
  unfold mathStep
  by_cases hii : (isIntegerRule l && isIntegerRule r) = true
  · rw [if_pos hii]
    obtain ⟨hil, hir⟩ := Bool.and_eq_true_iff.mp hii
    obtain ⟨a, rfl⟩ := exists_int_lit hil hl
    obtain ⟨b, rfl⟩ := exists_int_lit hir hr
    cases hm : ext.evaluate_binop_math op (numValue (.IntegerRule (.vint a)))
        (numValue (.IntegerRule (.vint b))) with
    | values vs => rfl
    | scalar v =>
        obtain ⟨n, rfl⟩ := hev op a b v (by simpa [numValue] using hm)
        rfl
  · rw [if_neg hii]
    by_cases hnn : (isNumberRule l && isNumberRule r) = true
    · rw [if_pos hnn]
      cases hm : ext.evaluate_binop_math op (numValue l) (numValue r) with
      | values vs => rfl
      | scalar v => rfl
    · rw [if_neg hnn]
      exact isCompiledB_math.mpr ⟨hl, hr, by simpa using hnn⟩

/-- Helper: every successful compilation result is a compiled tree. -/
theorem compileM_isCompiled (ext : ExtCap) (hev : EvOK ext) : (r : Rule) →
    ∀ out tr, compileM ext r = .ok (out, tr) → isCompiledB ext out = true
  | .IPV4Rule v => fun out tr h => by
      unfold compileM at h
      cases hc : compile_ip_v4 (.IPV4Rule v) with
      | error e => rw [hc] at h; simp [Except.map] at h
      | ok x =>
          rw [hc] at h
          simp [Except.map] at h
          rw [← h.1]
          rcases compile_ip_v4_ok hc with ⟨rfl, v', hA, hR⟩ | ⟨rng, rfl⟩
          · have hv : v = v' := by simpa [ruleValueAttr] using hA
            show isRangeVal v = true
            rw [hv]
            exact hR
          · rfl
  | .IPV6Rule v => fun out tr h => by
      unfold compileM at h
      cases hc : compile_ip_v4 (.IPV6Rule v) with
      | error e => rw [hc] at h; simp [Except.map] at h
      | ok x =>
          rw [hc] at h
          simp [Except.map] at h
          rw [← h.1]
          rcases compile_ip_v4_ok hc with ⟨rfl, v', hA, hR⟩ | ⟨rng, rfl⟩
          · have hv : v = v' := by simpa [ruleValueAttr] using hA
            show isRangeVal v = true
            rw [hv]
            exact hR
          · rfl
  | .DatetimeRule v => fun out tr h => by
      unfold compileM at h
      cases hc : compile_datetime ext (.DatetimeRule v) with
      | error e => rw [hc] at h; simp [Except.map] at h
      | ok x =>
          rw [hc] at h
          simp [Except.map] at h
          rw [← h.1]
          rcases compile_datetime_ok hc with ⟨rfl, t, hA⟩ | ⟨t, rfl⟩
          · have hv : v = .vdt t := by simpa [ruleValueAttr] using hA
            show isDatetimeVal v = true
            rw [hv]
            rfl
          · rfl
  | .IntegerRule v => fun out tr h => by
      unfold compileM at h
      cases hv : pyIntOfVal v with
      | error e => rw [hv] at h; simp at h
      | ok n =>
          rw [hv] at h
          simp at h
          rw [← h.1]
          rfl
  | .FloatRule v => fun out tr h => by
      unfold compileM at h; simp at h; rw [← h.1]; rfl
  | .ConstantRule v => fun out tr h => by
      unfold compileM at h; simp at h; rw [← h.1]; rfl
  | .VariableRule p => fun out tr h => by
      unfold compileM at h; simp at h; rw [← h.1]; rfl
  | .ListRule rs => fun out tr h => by
      unfold compileM at h; simp at h; rw [← h.1]; rfl
  | .IPListRule rs => fun out tr h => by
      unfold compileM at h; simp at h; rw [← h.1]; rfl
  | .LogicalBinOpRule op l r => fun out tr h => by
      unfold compileM at h
      cases hl : compileM ext l with
      | error e => rw [hl] at h; simp at h
      | ok p =>
        obtain ⟨l', tl⟩ := p
        rw [hl] at h
        cases hr : compileM ext r with
        | error e => rw [hr] at h; simp at h
        | ok q =>
          obtain ⟨r', tr2⟩ := q
          rw [hr] at h
          simp at h
          rw [← h.1]
          have ihl := compileM_isCompiled ext hev l l' tl hl
          have ihr := compileM_isCompiled ext hev r r' tr2 hr
          simp [isCompiledB, ihl, ihr]
  | .ComparisonBinOpRule op l r => fun out tr h => by
      unfold compileM at h
      cases hl : compileM ext l with
      | error e => rw [hl] at h; simp at h
      | ok p =>
        obtain ⟨l', tl⟩ := p
        rw [hl] at h
        cases hr : compileM ext r with
        | error e => rw [hr] at h; simp at h
        | ok q =>
          obtain ⟨r', tr2⟩ := q
          rw [hr] at h
          simp only [] at h
          cases hs : comparisonStep ext op l' r' with
          | error e => simp [hs] at h
          | ok u =>
            simp [hs] at h
            rw [← h.1]
            have ihl := compileM_isCompiled ext hev l l' tl hl
            have ihr := compileM_isCompiled ext hev r r' tr2 hr
            exact comparisonStep_ok_compiled ihl ihr hs
  | .MathBinOpRule op l r => fun out tr h => by
      unfold compileM at h
      cases hl : compileM ext l with
      | error e => rw [hl] at h; simp at h
      | ok p =>
        obtain ⟨l', tl⟩ := p
        rw [hl] at h
        cases hr : compileM ext r with
        | error e => rw [hr] at h; simp at h
        | ok q =>
          obtain ⟨r', tr2⟩ := q
          rw [hr] at h
          simp at h
          rw [← h.1]
          have ihl := compileM_isCompiled ext hev l l' tl hl
          have ihr := compileM_isCompiled ext hev r r' tr2 hr
          exact mathStep_compiled hev ihl ihr
  | .UnaryOperationRule op r => fun out tr h => by
      unfold compileM at h
      cases hr : compileM ext r with
      | error e => rw [hr] at h; simp at h
      | ok q =>
        obtain ⟨r', tr2⟩ := q
        rw [hr] at h
        simp at h
        rw [← h.1]
        exact compileM_isCompiled ext hev r r' tr2 hr

/-- Helper: a compiled tree is a fixed point of the compiler (up to the
re-recorded integer-value assignments in the mutation trace). -/
theorem isCompiledB_fix (ext : ExtCap) : (r : Rule) → isCompiledB ext r = true →
    ∃ tr, compileM ext r = .ok (r, tr)
  | .IPV4Rule v => fun h => by
      refine ⟨[], ?_⟩
      have hR : isRangeVal v = true := h
      simp [compileM, compile_ip_v4, ruleValueAttr, hR, Except.map]
  | .IPV6Rule v => fun h => by
      refine ⟨[], ?_⟩
      have hR : isRangeVal v = true := h
      simp [compileM, compile_ip_v4, ruleValueAttr, hR, Except.map]
  | .DatetimeRule v => fun h => by
      refine ⟨[], ?_⟩
      have hD : isDatetimeVal v = true := h
      simp [compileM, compile_datetime, ruleValueAttr, hD, Except.map]
  | .IntegerRule v => fun h => by
      have hI : isIntVal v = true := h
      cases v with
      | vint n => exact ⟨[⟨.vint n, .vint n⟩], by simp [compileM, pyIntOfVal]⟩
      | vstr s => simp [isIntVal] at hI
      | vfloat q => simp [isIntVal] at hI
      | vip rng => simp [isIntVal] at hI
      | vdt t => simp [isIntVal] at hI
  | .FloatRule v => fun _ => ⟨[], rfl⟩
  | .ConstantRule v => fun _ => ⟨[], rfl⟩
  | .VariableRule p => fun _ => ⟨[], rfl⟩
  | .ListRule rs => fun _ => ⟨[], rfl⟩
  | .IPListRule rs => fun _ => ⟨[], rfl⟩
  | .LogicalBinOpRule op l r => fun h => by
      obtain ⟨h1, h2⟩ := Bool.and_eq_true_iff.mp h
      obtain ⟨tl, hcl⟩ := isCompiledB_fix ext l h1
      obtain ⟨tr2, hcr⟩ := isCompiledB_fix ext r h2
      exact ⟨tl ++ tr2, by simp [compileM, hcl, hcr]⟩
  | .ComparisonBinOpRule op l r => fun h => by
      obtain ⟨h1, h2, h3⟩ := isCompiledB_comparison.mp h
      obtain ⟨tl, hcl⟩ := isCompiledB_fix ext l h1
      obtain ⟨tr2, hcr⟩ := isCompiledB_fix ext r h2
      exact ⟨tl ++ tr2, by simp [compileM, hcl, hcr, h3]⟩
  | .MathBinOpRule op l r => fun h => by
      obtain ⟨h1, h2, h3⟩ := isCompiledB_math.mp h
      obtain ⟨tl, hcl⟩ := isCompiledB_fix ext l h1
      obtain ⟨tr2, hcr⟩ := isCompiledB_fix ext r h2
      have hii : (isIntegerRule l && isIntegerRule r) = false := by
        cases l <;> cases r <;> simp_all [isIntegerRule, isNumberRule]
      exact ⟨tl ++ tr2, by simp [compileM, hcl, hcr, mathStep, hii, h3]⟩
  | .UnaryOperationRule op r => fun h => by
      have h1 : isCompiledB ext r = true := h
      obtain ⟨tr2, hcr⟩ := isCompiledB_fix ext r h1
      exact ⟨tr2, by simp [compileM, hcr]⟩

/-- C7: compilation is idempotent — whenever a rule tree compiles
successfully (no malformed literals), compiling the result again returns it
unchanged, provided the external arithmetic capability returns integers for
integer operands (`EvOK`). -/
theorem c7_compile_idempotent :
    ∀ ext r r', EvOK ext → compile ext r = .ok r' → compile ext r' = .ok r' := by
  intro ext r r' hev h
  unfold compile at h ⊢
  cases hc : compileM ext r with
  | error e => rw [hc] at h; simp [Except.map] at h
  | ok q =>
      obtain ⟨out, tr⟩ := q
      rw [hc] at h
      simp [Except.map] at h
      rw [← h]
      obtain ⟨tr', hfix⟩ := isCompiledB_fix ext out
        (compileM_isCompiled ext hev r out tr hc)
      rw [hfix]
      rfl

/-- C7 witness: the idempotence theorem applied to a concrete compilation
that exercises the comparison coercion table. -/
theorem c7_compile_idempotent_witness :
    EvOK extZero ∧
    compile extZero (.ComparisonBinOpRule "OP_EQ" (.VariableRule "Source.IP4")
      (.ConstantRule (.vstr "192.168.0.1"))) =
      .ok (.ComparisonBinOpRule "OP_EQ" (.VariableRule "Source.IP4")
        (.IPV4Rule (.vip (.ip4 3232235521)))) ∧
    compile extZero (.ComparisonBinOpRule "OP_EQ" (.VariableRule "Source.IP4")
      (.IPV4Rule (.vip (.ip4 3232235521)))) =
      .ok (.ComparisonBinOpRule "OP_EQ" (.VariableRule "Source.IP4")
        (.IPV4Rule (.vip (.ip4 3232235521)))) :=
  have hev : EvOK extZero := fun op a b v h => by
    have h2 : MathResult.scalar (.vint 0) = .scalar v := h
    injection h2 with h3
    exact ⟨0, h3.symm⟩
  ⟨hev, by decide,
   c7_compile_idempotent extZero
     (.ComparisonBinOpRule "OP_EQ" (.VariableRule "Source.IP4")
       (.ConstantRule (.vstr "192.168.0.1")))
     (.ComparisonBinOpRule "OP_EQ" (.VariableRule "Source.IP4")
       (.IPV4Rule (.vip (.ip4 3232235521))))
     hev (by decide)⟩
